import Mathlib

set_option linter.unusedSectionVars false

/-!
Verification of the `HashMap` container from `hash_map_2.h` / `hashtbl.h`
(all three headers in the repository implement the same container).

Shallow embedding:
* `value_store_` (a `std::vector<std::pair<KeyType, ValueType>>`) becomes a
  `List (K × V)`;
* `hashed_pointers_` (a `std::vector<std::vector<size_t>>`) becomes a
  `List (List Nat)`;
* the stored hash object `hasher_` becomes a field `hasher : K → Nat`;
* iterators are pairs (index, owning map); all iterator comparisons in the
  source compare iterators of the same map, so an iterator is represented by
  its `index_` field alone, and `end()` is the index `value_store.length`;
* `at` returns `Except Unit V`, where `Except.error ()` models the thrown
  `std::out_of_range` exception;
* `operator[]` returns the updated map together with the dereferenced value
  of the returned reference (as an `Option V`; `none` would be an
  out-of-range dereference, which never happens).

`std::vector::operator[]` with an in-range index is modelled by `List`
indexing `l[i]?`; every index the source uses is in range in every state
reachable through the public interface.
-/

namespace HashTbl

structure HashMap (K V : Type) where
  value_store : List (K × V)
  hashed_pointers : List (List Nat)
  hasher : K → Nat

variable {K V : Type} [DecidableEq K] [Inhabited V]

namespace HashMap

/-- Source `size()`: the number of stored elements, `value_store_.size()`. -/
def size (m : HashMap K V) : Nat := m.value_store.length

/-- The number of buckets, `hashed_pointers_.size()`. -/
def bucketCount (m : HashMap K V) : Nat := m.hashed_pointers.length

/-- Reading bucket `j` of a bucket table (`hashed_pointers_[j]`). -/
def bucketAt (hp : List (List Nat)) (j : Nat) : List Nat := (hp[j]?).getD []

/-- The keys currently stored, in dense-store order. -/
def keys (m : HashMap K V) : List K := m.value_store.map Prod.fst

/-- Total number of occurrences of the position `x` over all buckets. -/
def posCount (hp : List (List Nat)) (x : Nat) : Nat :=
  (hp.map (fun b => b.count x)).sum

/-- The loop body of `find`: scan the positions of one bucket in order and
return the first `x` with `value_store_[x].first == key`. -/
def scanBucket (store : List (K × V)) (key : K) : List Nat → Option Nat
  | [] => none
  | x :: rest =>
      if (store[x]?).map Prod.fst = some key then some x
      else scanBucket store key rest

/-- Source `find(key)`: look only at bucket `hasher_(key) % hashed_pointers_.size()`
and return the dense-store index of the match, or `value_store_.size()`
(the index held by `end()`) when there is none. -/
def find (m : HashMap K V) (key : K) : Nat :=
  (scanBucket m.value_store key
      (bucketAt m.hashed_pointers (m.hasher key % m.hashed_pointers.length))).getD
    m.value_store.length

/-- Source `hashed_pointers_[j].push_back(x)`. -/
def insertPos (hp : List (List Nat)) (j : Nat) (x : Nat) : List (List Nat) :=
  hp.set j (bucketAt hp j ++ [x])

/-- The rebuild loop of `check_and_reallocate` / `reallocate`:
`for (i = 0; i < value_store_.size(); i++) hashed_pointers_[hash(key_i) % new_size].push_back(i)`. -/
def rehashLoop (hasher : K → Nat) (ns : Nat) :
    List (K × V) → Nat → List (List Nat) → List (List Nat)
  | [], _, hp => hp
  | kv :: rest, i, hp => rehashLoop hasher ns rest (i + 1) (insertPos hp (hasher kv.1 % ns) i)

/-- Source `check_and_reallocate()` (named `reallocate()` in `hashtbl.h`): when
`REALLOCATION_FACTOR_ * size >= bucket_count * INCREMENT_FACTOR_`
(that is `3 * size >= 2 * bucket_count`), double the bucket count and
rebuild all buckets from the dense store. -/
def check_and_reallocate (m : HashMap K V) : HashMap K V :=
  if 3 * m.value_store.length ≥ m.hashed_pointers.length * 2 then
    let ns := m.hashed_pointers.length * 2
    { m with hashed_pointers := rehashLoop m.hasher ns m.value_store 0 (List.replicate ns []) }
  else m

/-- Source `insert(key_value)`: when the key is absent, append the pair to the dense
store, record the new position `value_store_.size() - 1` in its bucket, then
run the resize check; when the key is present, do nothing. -/
def insert (m : HashMap K V) (kv : K × V) : HashMap K V :=
  if m.find kv.1 = m.value_store.length then
    let vs := m.value_store ++ [kv]
    check_and_reallocate
      { m with
        value_store := vs,
        hashed_pointers :=
          insertPos m.hashed_pointers (m.hasher kv.1 % m.hashed_pointers.length)
            (vs.length - 1) }
  else m

/-- The first removal loop of `erase`: find the element of the bucket equal
to `v`, overwrite it with the bucket's back element, pop the back, break. -/
def removeSwapBack (b : List Nat) (v : Nat) : List Nat :=
  if h : v ∈ b then
    (b.set (b.indexOf v) (b.getLast (List.ne_nil_of_mem h))).dropLast
  else b

/-- The second loop of `erase`: rewrite the first element of the bucket that
equals `old` to `new`, break; no change when `old` does not occur. -/
def replaceFirst : List Nat → Nat → Nat → List Nat
  | [], _, _ => []
  | x :: rest, old, nw => if x = old then nw :: rest else x :: replaceFirst rest old nw

/-- Source `erase(key)`: no-op when absent; otherwise record `hash0`, `hash1`,
`index0`, `index1` before mutating, swap the target entry with the dense
store's back entry and pop it, remove `index0` from bucket `hash0`
(swap-with-back-then-pop), and rewrite `index1` to `index0` in bucket
`hash1`.  The `none` branch of the `match` is unreachable: the guard
guarantees the dense store is non-empty (in C++, `back()` on an empty vector
would be undefined). -/
def erase (m : HashMap K V) (key : K) : HashMap K V :=
  if m.find key = m.value_store.length then m
  else
    match m.value_store.getLast? with
    | none => m
    | some bkv =>
      let hash0 := m.hasher key % m.hashed_pointers.length
      let hash1 := m.hasher bkv.1 % m.hashed_pointers.length
      let index0 := m.find key
      let index1 := m.value_store.length - 1
      let hpB := m.hashed_pointers.set hash0
        (removeSwapBack (bucketAt m.hashed_pointers hash0) index0)
      let hpC := hpB.set hash1 (replaceFirst (bucketAt hpB hash1) index1 index0)
      { m with
        value_store := (m.value_store.set index0 bkv).dropLast,
        hashed_pointers := hpC }

/-- Source `clear()`: empty the dense store and reset the bucket table to one empty
bucket. -/
def clear (m : HashMap K V) : HashMap K V :=
  { m with value_store := [], hashed_pointers := [[]] }

/-- Source `at(key)`: the value stored under `key`, or `Except.error ()` (the thrown
`std::out_of_range`) when `find(key) == end()`.  The second `error` branch is
unreachable: `find` never returns an out-of-range index other than the
sentinel. -/
def atKey (m : HashMap K V) (key : K) : Except Unit V :=
  if m.find key = m.value_store.length then .error ()
  else
    match m.value_store[m.find key]? with
    | some kv => .ok kv.2
    | none => .error ()

/-- Source `operator[](key)`: when absent, insert `(key, ValueType())` and return a
reference into the new state; when present, return a reference into the
unchanged state.  The returned pair is (state after the call, value the
returned reference points at). -/
def indexOp (m : HashMap K V) (key : K) : HashMap K V × Option V :=
  if m.find key = m.value_store.length then
    let m2 := m.insert (key, (default : V))
    (m2, (m2.value_store[m2.find key]?).map Prod.snd)
  else (m, (m.value_store[m.find key]?).map Prod.snd)

end HashMap

/-- The default constructor `HashMap(hasher)`: empty store, one empty
bucket. -/
def emptyMap (hasher : K → Nat) : HashMap K V :=
  ⟨[], [[]], hasher⟩

/-- The range and initializer-list constructors: start from the default
constructor and `insert` each element in order. -/
def ofList (hasher : K → Nat) (l : List (K × V)) : HashMap K V :=
  l.foldl HashMap.insert (emptyMap hasher)

/-- One public mutating operation of the container. -/
inductive Op (K V : Type) where
  | insertOp (kv : K × V)
  | eraseOp (k : K)
  | bracketOp (k : K)
  | clearOp

/-- Run one public operation (for `operator[]`, keep the resulting state). -/
def applyOp (m : HashMap K V) : Op K V → HashMap K V
  | .insertOp kv => m.insert kv
  | .eraseOp k => m.erase k
  | .bracketOp k => (m.indexOp k).1
  | .clearOp => m.clear

/-- Run a sequence of public operations. -/
def runOps (m : HashMap K V) (ops : List (Op K V)) : HashMap K V :=
  ops.foldl applyOp m

namespace HashMap

/-- The bucket a live position belongs in: the hash of the key stored at
position `p`, modulo the current bucket count (`0` for a dead position,
never used). -/
def homeIdx (m : HashMap K V) (p : Nat) : Nat :=
  match m.value_store[p]? with
  | some kv => m.hasher kv.1 % m.bucketCount
  | none => 0

/-- The bucket-index property claimed by the specification: every live
position appears in exactly one bucket (once in total over all buckets), and
it appears in the bucket of its key's hash modulo the current bucket
count. -/
def BucketIndexInv (m : HashMap K V) : Prop :=
  ∀ p < m.size,
    posCount m.hashed_pointers p = 1 ∧ p ∈ bucketAt m.hashed_pointers (m.homeIdx p)

/-- The full data-structure invariant: at least one bucket; every bucket
entry is a live position; every live position occurs exactly once over all
buckets, and in its key's bucket; stored keys are pairwise distinct. -/
def WF (m : HashMap K V) : Prop :=
  0 < m.bucketCount ∧
  (∀ b ∈ m.hashed_pointers, ∀ x ∈ b, x < m.size) ∧
  (∀ p < m.size, posCount m.hashed_pointers p = 1) ∧
  (∀ p < m.size, p ∈ bucketAt m.hashed_pointers (m.homeIdx p)) ∧
  m.keys.Nodup

instance (m : HashMap K V) : Decidable m.BucketIndexInv := by
  unfold BucketIndexInv; infer_instance

instance (m : HashMap K V) : Decidable m.WF := by
  unfold WF; infer_instance

end HashMap

/-- Concrete test container: keys 10, 11, 12 (hash = identity) inserted into
an empty container, stored at dense positions 0, 1, 2. -/
def mapABC : HashMap Nat Nat :=
  (((emptyMap id).insert (10, 100)).insert (11, 101)).insert (12, 102)

/-- First step of the specification's rehash scenario. -/
def scenario1 : HashMap Nat String := (emptyMap id).insert (1, "a")

/-- Second step of the specification's rehash scenario. -/
def scenario2 : HashMap Nat String := scenario1.insert (2, "b")

/-- Third step of the specification's rehash scenario. -/
def scenario3 : HashMap Nat String := scenario2.insert (3, "c")


namespace HashMap

/-- Reading a bucket that was just overwritten. -/
theorem bucketAt_set_self {hp : List (List Nat)} {j : Nat} (h : j < hp.length)
    (L : List Nat) : bucketAt (hp.set j L) j = L := by
  simp [bucketAt, List.getElem?_set_self h]

/-- Reading a bucket other than the overwritten one. -/
theorem bucketAt_set_ne {hp : List (List Nat)} {i j : Nat} (h : i ≠ j)
    (L : List Nat) : bucketAt (hp.set i L) j = bucketAt hp j := by
  simp [bucketAt, List.getElem?_set_ne h]

/-- Reading past the bucket table yields the empty bucket. -/
theorem bucketAt_of_le {hp : List (List Nat)} {j : Nat} (h : hp.length ≤ j) :
    bucketAt hp j = [] := by
  simp [bucketAt, List.getElem?_eq_none h]

/-- A member of some bucket is a member of the table. -/
theorem exists_of_mem_bucketAt {hp : List (List Nat)} {x j : Nat}
    (h : x ∈ bucketAt hp j) : ∃ b ∈ hp, x ∈ b := by
  by_cases hj : j < hp.length
  · refine ⟨hp[j], List.getElem_mem hj, ?_⟩
    simpa [bucketAt, List.getElem?_eq_getElem hj] using h
  · rw [bucketAt_of_le (Nat.le_of_not_lt hj)] at h
    simp at h

theorem posCount_nil (x : Nat) : posCount [] x = 0 := rfl

theorem posCount_cons (b : List Nat) (hp : List (List Nat)) (x : Nat) :
    posCount (b :: hp) x = b.count x + posCount hp x := by
  simp [posCount]

/-- Replacing bucket `j` changes the total occurrence count of `x` by the
difference of the bucket counts (stated additively). -/
theorem posCount_set {hp : List (List Nat)} {j : Nat} (h : j < hp.length)
    (L : List Nat) (x : Nat) :
    posCount (hp.set j L) x + (bucketAt hp j).count x = posCount hp x + L.count x := by
  induction hp generalizing j with
  | nil => simp at h
  | cons b rest ih =>
    cases j with
    | zero =>
      simp [posCount_cons, bucketAt]
      omega
    | succ k =>
      simp only [List.length_cons, Nat.succ_lt_succ_iff] at h
      have hrec := ih (j := k) h
      simp only [List.set_cons_succ, posCount_cons]
      have hb : bucketAt (b :: rest) (k + 1) = bucketAt rest k := by
        simp [bucketAt]
      rw [hb]
      omega

/-- The count of `x` in any single bucket is at most the total count. -/
theorem count_bucketAt_le_posCount (hp : List (List Nat)) (j x : Nat) :
    (bucketAt hp j).count x ≤ posCount hp x := by
  induction hp generalizing j with
  | nil => simp [bucketAt]
  | cons b rest ih =>
    cases j with
    | zero => simp [bucketAt, posCount_cons]
    | succ k =>
      have hb : bucketAt (b :: rest) (k + 1) = bucketAt rest k := by simp [bucketAt]
      rw [hb, posCount_cons]
      have := ih k
      omega

/-- A position occurring in some bucket has positive total count. -/
theorem posCount_pos_of_mem_bucketAt {hp : List (List Nat)} {x j : Nat}
    (h : x ∈ bucketAt hp j) : 0 < posCount hp x := by
  have h1 : 0 < (bucketAt hp j).count x := List.count_pos_iff.mpr h
  have h2 := count_bucketAt_le_posCount hp j x
  omega

/-- A position with total count zero is in no bucket. -/
theorem not_mem_bucketAt_of_posCount_eq_zero {hp : List (List Nat)} {x : Nat}
    (h : posCount hp x = 0) (j : Nat) : x ∉ bucketAt hp j := by
  intro hmem
  have := posCount_pos_of_mem_bucketAt hmem
  omega

theorem length_insertPos (hp : List (List Nat)) (j x : Nat) :
    (insertPos hp j x).length = hp.length := by
  simp [insertPos]

/-- Pushing position `y` onto bucket `j` adds one occurrence of `y`. -/
theorem posCount_insertPos {hp : List (List Nat)} {j : Nat} (h : j < hp.length)
    (y x : Nat) :
    posCount (insertPos hp j y) x = posCount hp x + if x = y then 1 else 0 := by
  have hset := posCount_set h (bucketAt hp j ++ [y]) x
  rw [List.count_append] at hset
  have hy : List.count x [y] = if x = y then 1 else 0 := by
    by_cases hxy : x = y <;> simp [hxy, List.count_singleton]
  rw [insertPos]
  omega

/-- Membership in a bucket after a push. -/
theorem mem_bucketAt_insertPos {hp : List (List Nat)} {j : Nat} (h : j < hp.length)
    (y i x : Nat) :
    x ∈ bucketAt (insertPos hp j y) i ↔ x ∈ bucketAt hp i ∨ (x = y ∧ i = j) := by
  by_cases hij : i = j
  · subst hij
    rw [insertPos, bucketAt_set_self h]
    simp
  · rw [insertPos, bucketAt_set_ne (fun hji => hij hji.symm)]
    simp [hij]

end HashMap


namespace HashMap

theorem rehashLoop_length (hasher : K → Nat) (ns : Nat) (store : List (K × V))
    (i0 : Nat) (hp : List (List Nat)) :
    (rehashLoop hasher ns store i0 hp).length = hp.length := by
  induction store generalizing i0 hp with
  | nil => rfl
  | cons kv rest ih =>
    rw [rehashLoop, ih, length_insertPos]

/-- The rebuild loop inserts each of the positions `i0, …, i0 + store.length - 1`
exactly once. -/
theorem rehashLoop_posCount (hasher : K → Nat) {ns : Nat} (hns : 0 < ns)
    (store : List (K × V)) (i0 : Nat) {hp : List (List Nat)} (hlen : hp.length = ns)
    (x : Nat) :
    posCount (rehashLoop hasher ns store i0 hp) x =
      posCount hp x + (if i0 ≤ x ∧ x < i0 + store.length then 1 else 0) := by
  induction store generalizing i0 hp with
  | nil =>
    rw [rehashLoop]
    have hf : ¬(i0 ≤ x ∧ x < i0 + List.length ([] : List (K × V))) := by
      simp only [List.length_nil]
      omega
    simp [hf]
  | cons kv rest ih =>
    rw [rehashLoop]
    rw [ih (i0 + 1) (by rw [length_insertPos]; exact hlen)]
    rw [posCount_insertPos (by rw [hlen]; exact Nat.mod_lt _ hns)]
    simp only [List.length_cons]
    split_ifs <;> omega

/-- Bucket membership after the rebuild loop: an old member of the same
bucket, or a position `i0 + d` whose key at offset `d` hashes to the
bucket. -/
theorem rehashLoop_mem (hasher : K → Nat) {ns : Nat} (hns : 0 < ns)
    (store : List (K × V)) (i0 : Nat) {hp : List (List Nat)} (hlen : hp.length = ns)
    (j x : Nat) :
    x ∈ bucketAt (rehashLoop hasher ns store i0 hp) j ↔
      x ∈ bucketAt hp j ∨
        ∃ d kv, store[d]? = some kv ∧ x = i0 + d ∧ j = hasher kv.1 % ns := by
  induction store generalizing i0 hp with
  | nil =>
    rw [rehashLoop]
    simp
  | cons kv rest ih =>
    rw [rehashLoop]
    rw [ih (i0 + 1) (by rw [length_insertPos]; exact hlen)]
    rw [mem_bucketAt_insertPos (by rw [hlen]; exact Nat.mod_lt _ hns)]
    constructor
    · rintro ((hmem | ⟨hx, hj⟩) | ⟨d, kv2, hd, hx, hj⟩)
      · exact Or.inl hmem
      · exact Or.inr ⟨0, kv, by simp, by omega, hj⟩
      · exact Or.inr ⟨d + 1, kv2, by simpa using hd, by omega, hj⟩
    · rintro (hmem | ⟨d, kv2, hd, hx, hj⟩)
      · exact Or.inl (Or.inl hmem)
      · cases d with
        | zero =>
          simp only [List.getElem?_cons_zero, Option.some.injEq] at hd
          exact Or.inl (Or.inr ⟨by omega, by rw [hj, hd]⟩)
        | succ d2 =>
          refine Or.inr ⟨d2, kv2, by simpa using hd, by omega, hj⟩

theorem check_value_store (m : HashMap K V) :
    (check_and_reallocate m).value_store = m.value_store := by
  rw [check_and_reallocate]
  split <;> rfl

theorem check_hasher (m : HashMap K V) :
    (check_and_reallocate m).hasher = m.hasher := by
  rw [check_and_reallocate]
  split <;> rfl

/-- Doubling never shrinks the bucket table, and at most doubles it. -/
theorem check_bucketCount (m : HashMap K V) :
    (check_and_reallocate m).bucketCount = m.bucketCount ∨
      (check_and_reallocate m).bucketCount = m.bucketCount * 2 := by
  rw [check_and_reallocate]
  split
  · right
    simp only [bucketCount]
    rw [rehashLoop_length, List.length_replicate]
  · left
    rfl

end HashMap


namespace HashMap

/-- Overwriting position `j` with the last element and popping the back has
the same contents as deleting position `j` (this is the swap-with-back
removal idiom). -/
theorem set_getLast_dropLast_perm {α : Type} :
    ∀ (b : List α) (j : Nat), j < b.length → ∀ (w : α), b.getLast? = some w →
      ((b.set j w).dropLast).Perm (b.eraseIdx j)
  | [], j, hj, w, hw => by simp at hj
  | a :: t, 0, hj, w, hw => by
    cases t with
    | nil =>
      simp at hw
      simp [hw]
    | cons c t2 =>
      have hne : (c :: t2) ≠ ([] : List α) := by simp
      have hw2 : (c :: t2).getLast? = some w := by
        rw [← hw, List.getLast?_cons_cons]
      have hlast : (c :: t2).getLast hne = w := by
        have := List.getLast?_eq_getLast (c :: t2) hne
        rw [hw2] at this
        exact (Option.some.injEq _ _).mp this.symm
      have hsplit : (c :: t2).dropLast ++ [w] = c :: t2 := by
        rw [← hlast]
        exact List.dropLast_concat_getLast hne
      simp only [List.set_cons_zero, List.eraseIdx_cons_zero]
      have hcons : (w :: c :: t2).dropLast = w :: (c :: t2).dropLast := by
        exact List.dropLast_cons_of_ne_nil hne
      rw [hcons]
      have hstep : (w :: (c :: t2).dropLast).Perm ((c :: t2).dropLast ++ [w]) :=
        (List.perm_append_singleton w _).symm
      rw [hsplit] at hstep
      exact hstep
  | a :: t, j + 1, hj, w, hw => by
    have hjt : j < t.length := by
      simp only [List.length_cons] at hj
      omega
    have hne : t ≠ ([] : List α) := by
      intro hnil
      rw [hnil] at hjt
      simp at hjt
    have hw2 : t.getLast? = some w := by
      rw [← hw]
      cases t with
      | nil => exact absurd rfl hne
      | cons c t2 => rw [List.getLast?_cons_cons]
    have hsetne : t.set j w ≠ ([] : List α) := by
      intro hnil
      have := List.length_set t j w
      rw [hnil] at this
      simp at this
      omega
    simp only [List.set_cons_succ, List.eraseIdx_cons_succ]
    rw [List.dropLast_cons_of_ne_nil hsetne]
    exact (set_getLast_dropLast_perm t j hjt w hw2).cons a

theorem removeSwapBack_of_not_mem {b : List Nat} {v : Nat} (h : v ∉ b) :
    removeSwapBack b v = b := by
  rw [removeSwapBack, dif_neg h]

/-- The swap-with-back removal deletes exactly one occurrence of `v`. -/
theorem removeSwapBack_perm {b : List Nat} {v : Nat} (h : v ∈ b) :
    (removeSwapBack b v).Perm (b.erase v) := by
  rw [removeSwapBack, dif_pos h]
  have hne : b ≠ [] := List.ne_nil_of_mem h
  have hj : b.indexOf v < b.length := List.indexOf_lt_length.mpr h
  have hperm := set_getLast_dropLast_perm b (b.indexOf v) hj (b.getLast hne)
    (List.getLast?_eq_getLast b hne)
  rw [← List.eraseIdx_indexOf_eq_erase]
  exact hperm

theorem replaceFirst_of_not_mem {b : List Nat} {old nw : Nat} (h : old ∉ b) :
    replaceFirst b old nw = b := by
  induction b with
  | nil => rfl
  | cons x rest ih =>
    simp only [List.mem_cons, not_or] at h
    rw [replaceFirst, if_neg (fun he => h.1 he.symm), ih h.2]

/-- Rewriting the first occurrence of `old` to `nw` has the contents of
deleting `old` and adding `nw`. -/
theorem replaceFirst_perm {b : List Nat} {old nw : Nat} (h : old ∈ b) :
    (replaceFirst b old nw).Perm (nw :: b.erase old) := by
  induction b with
  | nil => simp at h
  | cons x rest ih =>
    by_cases hx : x = old
    · subst hx
      rw [replaceFirst, if_pos rfl, List.erase_cons_head]
    · rw [replaceFirst, if_neg hx, List.erase_cons_tail]
      · have hrest : old ∈ rest := by
          rcases List.mem_cons.mp h with h1 | h1
          · exact absurd h1.symm hx
          · exact h1
        exact ((ih hrest).cons x).trans (List.Perm.swap nw x _)
      · simp [hx]

/-- Any list is a permutation of one of its elements consed onto the list
with that position deleted. -/
theorem perm_cons_eraseIdx {α : Type} :
    ∀ {l : List α} {i : Nat} {a : α}, l[i]? = some a → l.Perm (a :: l.eraseIdx i)
  | [], i, a, h => by simp at h
  | x :: t, 0, a, h => by
    simp only [List.getElem?_cons_zero, Option.some.injEq] at h
    subst h
    rw [List.eraseIdx_cons_zero]
  | x :: t, i + 1, a, h => by
    simp only [List.getElem?_cons_succ] at h
    have ht := perm_cons_eraseIdx h
    rw [List.eraseIdx_cons_succ]
    exact (ht.cons x).trans (List.Perm.swap a x _)

end HashMap


namespace HashMap

/-- An index with a `some` result is in range. -/
theorem lt_length_of_getElem_eq_some {α : Type} {l : List α} {i : Nat} {a : α}
    (h : l[i]? = some a) : i < l.length := by
  by_contra hc
  rw [List.getElem?_eq_none (Nat.le_of_not_lt hc)] at h
  exact Option.noConfusion h

/-- A list member is returned by indexing at some position. -/
theorem exists_getElem_of_mem {α : Type} {l : List α} {a : α} (h : a ∈ l) :
    ∃ i : Nat, l[i]? = some a := by
  obtain ⟨i, hlt, hi⟩ := List.getElem_of_mem h
  exact ⟨i, by rw [List.getElem?_eq_getElem hlt, hi]⟩

/-- The bucket scan fails exactly when no listed position stores the key. -/
theorem scanBucket_eq_none_iff {store : List (K × V)} {key : K} :
    ∀ {b : List Nat}, scanBucket store key b = none ↔
      ∀ x ∈ b, ¬(store[x]?).map Prod.fst = some key
  | [] => by simp [scanBucket]
  | x :: rest => by
    rw [scanBucket]
    split
    · rename_i hx
      simp only [iff_false_intro (Option.some_ne_none x)]
      constructor
      · intro hfalse
        exact absurd hfalse (by simp)
      · intro hall
        exact absurd hx (hall x (List.mem_cons_self x rest))
    · rename_i hx
      rw [scanBucket_eq_none_iff]
      constructor
      · intro hall y hy
        rcases List.mem_cons.mp hy with h1 | h1
        · rw [h1]; exact hx
        · exact hall y h1
      · intro hall y hy
        exact hall y (List.mem_cons_of_mem x hy)

/-- A successful bucket scan returns a listed position that stores the key. -/
theorem scanBucket_eq_some {store : List (K × V)} {key : K} :
    ∀ {b : List Nat} {x : Nat}, scanBucket store key b = some x →
      x ∈ b ∧ (store[x]?).map Prod.fst = some key
  | [], x, h => by simp [scanBucket] at h
  | y :: rest, x, h => by
    rw [scanBucket] at h
    split at h
    · rename_i hy
      cases h
      exact ⟨List.mem_cons_self y rest, hy⟩
    · have := scanBucket_eq_some h
      exact ⟨List.mem_cons_of_mem y this.1, this.2⟩

/-- Dichotomy for `find`: either the end sentinel, or a live position that
stores the searched key in the searched bucket. -/
theorem find_eq_size_or (m : HashMap K V) (key : K) :
    m.find key = m.size ∨
      (m.find key < m.size ∧ (∃ v, m.value_store[m.find key]? = some (key, v)) ∧
        m.find key ∈ bucketAt m.hashed_pointers (m.hasher key % m.bucketCount)) := by
  rw [find, size]
  cases hscan : scanBucket m.value_store key
      (bucketAt m.hashed_pointers (m.hasher key % m.hashed_pointers.length)) with
  | none => left; rfl
  | some x =>
    right
    obtain ⟨hmem, hkey⟩ := scanBucket_eq_some hscan
    obtain ⟨kv, hkv, hfst⟩ := Option.map_eq_some'.mp hkey
    refine ⟨lt_length_of_getElem_eq_some (by simpa using hkv), ⟨kv.2, ?_⟩, ?_⟩
    · simpa [← hfst] using hkv
    · simpa [bucketCount] using hmem

/-- With a well-formed table, `find` locates any stored entry at its exact
position (keys are unique, and every entry is indexed in its home bucket). -/
theorem find_eq_of_getElem (m : HashMap K V) (hwf : m.WF) {p : Nat} {key : K}
    {v : V} (h : m.value_store[p]? = some (key, v)) : m.find key = p := by
  obtain ⟨hbc, hvalid, hcount, hhome, hnodup⟩ := hwf
  have hlt : p < m.size := lt_length_of_getElem_eq_some h
  have hhip : m.homeIdx p = m.hasher key % m.bucketCount := by
    rw [homeIdx, h]
  have hpmem : p ∈ bucketAt m.hashed_pointers (m.hasher key % m.bucketCount) := by
    rw [← hhip]
    exact hhome p hlt
  have hptest : (m.value_store[p]?).map Prod.fst = some key := by rw [h]; rfl
  rw [find]
  cases hscan : scanBucket m.value_store key
      (bucketAt m.hashed_pointers (m.hasher key % m.hashed_pointers.length)) with
  | none =>
    exact absurd hptest
      ((scanBucket_eq_none_iff.mp hscan) p (by simpa [bucketCount] using hpmem))
  | some x =>
    obtain ⟨hxmem, hxtest⟩ := scanBucket_eq_some hscan
    have hxkeys : m.keys[x]? = some key := by
      rw [keys, List.getElem?_map]
      exact hxtest
    have hpkeys : m.keys[p]? = some key := by
      rw [keys, List.getElem?_map, h]
      rfl
    have hxlt : x < m.keys.length := lt_length_of_getElem_eq_some hxkeys
    have : x = p := List.getElem?_inj hxlt hnodup (hxkeys.trans hpkeys.symm)
    simpa using this

/-- With a well-formed table, `find` returns the end sentinel exactly for
absent keys. -/
theorem find_eq_size_iff (m : HashMap K V) (hwf : m.WF) (key : K) :
    m.find key = m.size ↔ key ∉ m.keys := by
  constructor
  · intro hfind hkey
    obtain ⟨kv, hkvmem, hfst⟩ := List.mem_map.mp hkey
    obtain ⟨p, hp⟩ := exists_getElem_of_mem hkvmem
    have hp2 : m.value_store[p]? = some (key, kv.2) := by
      rw [hp]
      cases kv
      simp only at hfst
      rw [hfst]
    have := find_eq_of_getElem m hwf hp2
    have hplt : p < m.size := lt_length_of_getElem_eq_some hp
    omega
  · intro habs
    rcases find_eq_size_or m key with h | ⟨hlt, ⟨v, hv⟩, _⟩
    · exact h
    · exfalso
      apply habs
      rw [keys]
      exact List.mem_map.mpr ⟨(key, v), List.getElem?_mem hv, rfl⟩

end HashMap


namespace HashMap

/-- A position with positive total count lies in some bucket. -/
theorem exists_mem_of_posCount_pos (hp : List (List Nat)) (x : Nat)
    (h : 0 < posCount hp x) : ∃ b ∈ hp, x ∈ b := by
  induction hp with
  | nil => simp [posCount] at h
  | cons b rest ih =>
    rw [posCount_cons] at h
    by_cases hb : 0 < b.count x
    · exact ⟨b, List.mem_cons_self b rest, List.count_pos_iff.mp hb⟩
    · have : 0 < posCount rest x := by omega
      obtain ⟨b2, hb2, hx2⟩ := ih this
      exact ⟨b2, List.mem_cons_of_mem b hb2, hx2⟩

theorem bucketAt_of_getElem {hp : List (List Nat)} {j : Nat} {b : List Nat}
    (h : hp[j]? = some b) : bucketAt hp j = b := by
  rw [bucketAt, h]
  rfl

theorem posCount_replicate (n x : Nat) : posCount (List.replicate n []) x = 0 := by
  induction n with
  | zero => rfl
  | succ k ih =>
    rw [List.replicate_succ, posCount_cons, ih]
    simp

theorem bucketAt_replicate_nil (n j : Nat) : bucketAt (List.replicate n []) j = [] := by
  rw [bucketAt]
  cases h : (List.replicate n ([] : List Nat))[j]? with
  | none => rfl
  | some b =>
    have := List.getElem?_mem h
    rw [List.eq_of_mem_replicate this]
    rfl

/-- The empty container is well-formed. -/
theorem WF_emptyMap (hasher : K → Nat) : (emptyMap hasher : HashMap K V).WF := by
  refine ⟨by simp [emptyMap, bucketCount], ?_, ?_, ?_, ?_⟩
  · intro b hb x hx
    simp [emptyMap] at hb
    rw [hb] at hx
    simp at hx
  · intro p hp
    simp [emptyMap, size] at hp
  · intro p hp
    simp [emptyMap, size] at hp
  · simp [emptyMap, keys]

/-- Clearing yields a well-formed container. -/
theorem WF_clear (m : HashMap K V) : m.clear.WF := by
  refine ⟨by simp [clear, bucketCount], ?_, ?_, ?_, ?_⟩
  · intro b hb x hx
    simp [clear] at hb
    rw [hb] at hx
    simp at hx
  · intro p hp
    simp [clear, size] at hp
  · intro p hp
    simp [clear, size] at hp
  · simp [clear, keys]

/-- The resize check preserves well-formedness: when it fires, the rebuilt
bucket table indexes every live position exactly once, in its home bucket
for the doubled bucket count. -/
theorem WF_check {m : HashMap K V} (hwf : m.WF) : (check_and_reallocate m).WF := by
  rw [check_and_reallocate]
  split
  · obtain ⟨hbc, hvalid, hcount, hhome, hnodup⟩ := hwf
    have hns : 0 < m.hashed_pointers.length * 2 := by
      rw [bucketCount] at hbc
      omega
    have hlenrep :
        (List.replicate (m.hashed_pointers.length * 2) ([] : List Nat)).length =
          m.hashed_pointers.length * 2 :=
      List.length_replicate _ _
    set ns := m.hashed_pointers.length * 2 with hnsdef
    set hpR := rehashLoop m.hasher ns m.value_store 0 (List.replicate ns []) with hpRdef
    have hlenR : hpR.length = ns := by
      rw [hpRdef, rehashLoop_length, hlenrep]
    refine ⟨?_, ?_, ?_, ?_, ?_⟩
    · show 0 < hpR.length
      omega
    · intro b hb x hx
      obtain ⟨j, hj⟩ := exists_getElem_of_mem hb
      have hxj : x ∈ bucketAt hpR j := by
        rw [bucketAt_of_getElem hj]
        exact hx
      rw [hpRdef, rehashLoop_mem m.hasher hns m.value_store 0 hlenrep] at hxj
      rcases hxj with hmem | ⟨d, kv, hd, hxd, hjd⟩
      · rw [bucketAt_replicate_nil] at hmem
        simp at hmem
      · show x < m.value_store.length
        have := lt_length_of_getElem_eq_some hd
        omega
    · intro p hp
      show posCount hpR p = 1
      rw [hpRdef, rehashLoop_posCount m.hasher hns m.value_store 0 hlenrep,
        posCount_replicate]
      rw [size] at hp
      simp only [Nat.zero_add]
      have : 0 ≤ p ∧ p < m.value_store.length := ⟨Nat.zero_le p, hp⟩
      simp [this]
    · intro p hp
      rw [size] at hp
      have hsome : m.value_store[p]? = some m.value_store[p] :=
        List.getElem?_eq_getElem hp
      show p ∈ bucketAt hpR _
      have hhi : homeIdx { m with hashed_pointers := hpR } p =
          m.hasher (m.value_store[p]).1 % ns := by
        rw [homeIdx]
        simp only
        rw [hsome, bucketCount]
        simp only
        rw [hlenR]
      rw [hhi, hpRdef, rehashLoop_mem m.hasher hns m.value_store 0 hlenrep]
      exact Or.inr ⟨p, m.value_store[p], hsome, by omega, rfl⟩
    · exact hnodup
  · exact hwf

/-- Insertion preserves well-formedness. -/
theorem WF_insert {m : HashMap K V} (hwf : m.WF) (kv : K × V) : (m.insert kv).WF := by
  rw [insert]
  split
  · rename_i habs
    apply WF_check
    obtain ⟨hbc, hvalid, hcount, hhome, hnodup⟩ := hwf
    have hbc0 : 0 < m.hashed_pointers.length := hbc
    have hmod : m.hasher kv.1 % m.hashed_pointers.length < m.hashed_pointers.length :=
      Nat.mod_lt _ hbc0
    have hlen1 : (m.value_store ++ [kv]).length - 1 = m.value_store.length := by
      rw [List.length_append]
      simp
    have hkey : kv.1 ∉ m.keys := by
      rw [← find_eq_size_iff m ⟨hbc, hvalid, hcount, hhome, hnodup⟩ kv.1]
      exact habs
    rw [hlen1]
    refine ⟨?_, ?_, ?_, ?_, ?_⟩
    · show 0 < (insertPos _ _ _).length
      rw [length_insertPos]
      exact hbc0
    · intro b hb x hx
      obtain ⟨j, hj⟩ := exists_getElem_of_mem hb
      have hxj : x ∈ bucketAt (insertPos m.hashed_pointers
          (m.hasher kv.1 % m.hashed_pointers.length) m.value_store.length) j := by
        rw [bucketAt_of_getElem hj]
        exact hx
      rw [mem_bucketAt_insertPos hmod] at hxj
      show x < (m.value_store ++ [kv]).length
      rw [List.length_append, List.length_cons, List.length_nil]
      rcases hxj with hmem | ⟨hxn, _⟩
      · obtain ⟨b2, hb2, hx2⟩ := exists_of_mem_bucketAt hmem
        have := hvalid b2 hb2 x hx2
        rw [size] at this
        omega
      · omega
    · intro p hp
      show posCount _ p = 1
      rw [posCount_insertPos hmod]
      rw [size] at hp
      simp only [List.length_append, List.length_cons, List.length_nil] at hp
      by_cases hpn : p = m.value_store.length
      · have hzero : posCount m.hashed_pointers p = 0 := by
          by_contra hne
          obtain ⟨b2, hb2, hx2⟩ := exists_mem_of_posCount_pos m.hashed_pointers p (by omega)
          have := hvalid b2 hb2 p hx2
          rw [size] at this
          omega
        rw [hzero]
        simp [hpn]
      · have hplt : p < m.value_store.length := by omega
        have := hcount p (by rw [size]; exact hplt)
        rw [this]
        simp [hpn]
    · intro p hp
      rw [size] at hp
      simp only [List.length_append, List.length_cons, List.length_nil] at hp
      by_cases hpn : p = m.value_store.length
      · subst hpn
        have hsome : (m.value_store ++ [kv])[m.value_store.length]? = some kv :=
          List.getElem?_concat_length m.value_store kv
        show _ ∈ bucketAt _ (homeIdx _ _)
        have hhi : homeIdx { m with
            value_store := m.value_store ++ [kv],
            hashed_pointers := insertPos m.hashed_pointers
              (m.hasher kv.1 % m.hashed_pointers.length) m.value_store.length }
            m.value_store.length = m.hasher kv.1 % m.hashed_pointers.length := by
          rw [homeIdx]
          simp only
          rw [hsome, bucketCount]
          simp only
          rw [length_insertPos]
        rw [hhi, mem_bucketAt_insertPos hmod]
        exact Or.inr ⟨rfl, rfl⟩
      · have hplt : p < m.value_store.length := by omega
        have hsome : (m.value_store ++ [kv])[p]? = m.value_store[p]? :=
          List.getElem?_append_left hplt
        show _ ∈ bucketAt _ (homeIdx _ _)
        have hhi : homeIdx { m with
            value_store := m.value_store ++ [kv],
            hashed_pointers := insertPos m.hashed_pointers
              (m.hasher kv.1 % m.hashed_pointers.length) m.value_store.length }
            p = homeIdx m p := by
          rw [homeIdx, homeIdx]
          simp only
          rw [hsome, bucketCount, bucketCount]
          simp only
          rw [length_insertPos]
        rw [hhi, mem_bucketAt_insertPos hmod]
        exact Or.inl (hhome p (by rw [size]; exact hplt))
    · show (keys _).Nodup
      have hkeys : keys { m with
          value_store := m.value_store ++ [kv],
          hashed_pointers := insertPos m.hashed_pointers
            (m.hasher kv.1 % m.hashed_pointers.length) m.value_store.length } =
          m.keys ++ [kv.1] := by
        rw [keys, keys]
        simp
      rw [hkeys, List.nodup_append]
      refine ⟨hnodup, List.nodup_singleton kv.1, ?_⟩
      intro a ha hb
      simp only [List.mem_singleton] at hb
      rw [hb] at ha
      exact hkey ha
  · exact hwf

end HashMap


namespace HashMap

/-- Unfolding of `erase` in the present case: the guard fails and the dense
store is non-empty, so the swap-compaction branch runs. -/
theorem erase_present_eq (m : HashMap K V) {key : K} {bkv : K × V}
    (hne : ¬m.find key = m.value_store.length)
    (hlast : m.value_store.getLast? = some bkv) :
    m.erase key = { m with
      value_store := (m.value_store.set (m.find key) bkv).dropLast,
      hashed_pointers :=
        (m.hashed_pointers.set (m.hasher key % m.hashed_pointers.length)
            (removeSwapBack
              (bucketAt m.hashed_pointers (m.hasher key % m.hashed_pointers.length))
              (m.find key))).set
          (m.hasher bkv.1 % m.hashed_pointers.length)
          (replaceFirst
            (bucketAt
              (m.hashed_pointers.set (m.hasher key % m.hashed_pointers.length)
                (removeSwapBack
                  (bucketAt m.hashed_pointers (m.hasher key % m.hashed_pointers.length))
                  (m.find key)))
              (m.hasher bkv.1 % m.hashed_pointers.length))
            (m.value_store.length - 1) (m.find key)) } := by
  rw [erase, if_neg hne, hlast]

/-- The master lemma about `erase` on a present key in a well-formed table:
the size drops by one, all positions other than the target keep their
entries, the target position receives the former last entry, the result is
well-formed, and the erased key is gone. -/
theorem erase_spec (m : HashMap K V) (hwf : m.WF) {p0 : Nat} {key : K} {v0 : V}
    (h : m.value_store[p0]? = some (key, v0)) :
    (m.erase key).size + 1 = m.size ∧
    (∀ q, q < m.size - 1 → q ≠ p0 →
      (m.erase key).value_store[q]? = m.value_store[q]?) ∧
    (p0 ≠ m.size - 1 →
      (m.erase key).value_store[p0]? = m.value_store[m.size - 1]?) ∧
    (m.erase key).WF ∧
    key ∉ (m.erase key).keys ∧
    (m.erase key).hasher = m.hasher ∧
    (m.erase key).bucketCount = m.bucketCount := by
  have hbc := hwf.1
  have hvalid := hwf.2.1
  have hcount := hwf.2.2.1
  have hhome := hwf.2.2.2.1
  have hnodup := hwf.2.2.2.2
  have hbc0 : 0 < m.hashed_pointers.length := hbc
  have hp0lt : p0 < m.value_store.length := lt_length_of_getElem_eq_some h
  have hn1 : 0 < m.value_store.length := by omega
  have hfind : m.find key = p0 := find_eq_of_getElem m hwf h
  have hfne : ¬m.find key = m.value_store.length := by omega
  have hq1lt : m.value_store.length - 1 < m.value_store.length := by omega
  obtain ⟨bkv, hlast⟩ : ∃ bkv, m.value_store.getLast? = some bkv := by
    rw [List.getLast?_eq_getElem?]
    exact ⟨_, List.getElem?_eq_getElem hq1lt⟩
  have hq1some : m.value_store[m.value_store.length - 1]? = some bkv := by
    rw [← List.getLast?_eq_getElem?]
    exact hlast
  rw [erase_present_eq m hfne hlast, hfind]
  set n := m.value_store.length with hn_def
  set hash0 := m.hasher key % m.hashed_pointers.length with hh0_def
  set hash1 := m.hasher bkv.1 % m.hashed_pointers.length with hh1_def
  set cb0 := bucketAt m.hashed_pointers hash0 with hcb0_def
  set L0 := removeSwapBack cb0 p0 with hL0_def
  set hpB := m.hashed_pointers.set hash0 L0 with hpB_def
  set L1b := bucketAt hpB hash1 with hL1b_def
  set L1 := replaceFirst L1b (n - 1) p0 with hL1_def
  set hpC := hpB.set hash1 L1 with hpC_def
  set store2 := (m.value_store.set p0 bkv).dropLast with hstore2_def
  -- basic index facts
  have h0lt : hash0 < m.hashed_pointers.length := Nat.mod_lt _ hbc0
  have h1lt : hash1 < m.hashed_pointers.length := Nat.mod_lt _ hbc0
  have hlenB : hpB.length = m.hashed_pointers.length := by
    rw [hpB_def, List.length_set]
  have hlenC : hpC.length = m.hashed_pointers.length := by
    rw [hpC_def, List.length_set, hlenB]
  have h1ltB : hash1 < hpB.length := by omega
  have hlen2 : store2.length = n - 1 := by
    rw [hstore2_def, List.length_dropLast, List.length_set]
  -- home-bucket facts in the old table
  have hp0mem : p0 ∈ cb0 := by
    have hhi : m.homeIdx p0 = hash0 := by
      simp only [homeIdx, h]
      rfl
    have := hhome p0 (by simp only [size]; omega)
    rw [hhi] at this
    exact this
  have hq1mem : n - 1 ∈ bucketAt m.hashed_pointers hash1 := by
    have hhi : m.homeIdx (n - 1) = hash1 := by
      simp only [homeIdx, hq1some]
      rfl
    have := hhome (n - 1) (by simp only [size]; omega)
    rw [hhi] at this
    exact this
  have hcntp0 : posCount m.hashed_pointers p0 = 1 :=
    hcount p0 (by simp only [size]; omega)
  have hcntq1 : posCount m.hashed_pointers (n - 1) = 1 :=
    hcount (n - 1) (by simp only [size]; omega)
  have hcntcb0 : cb0.count p0 = 1 := by
    have h1 : 0 < cb0.count p0 := List.count_pos_iff.mpr hp0mem
    have h2 := count_bucketAt_le_posCount m.hashed_pointers hash0 p0
    rw [← hcb0_def] at h2
    omega
  -- step 1: remove p0 from bucket hash0
  have hL0perm : L0.Perm (cb0.erase p0) := removeSwapBack_perm hp0mem
  have hL0count : ∀ x, L0.count x = cb0.count x - (if p0 = x then 1 else 0) := by
    intro x
    rw [hL0perm.count_eq, List.count_erase]
    simp only [beq_iff_eq]
  have hsetB : ∀ x, posCount hpB x + cb0.count x =
      posCount m.hashed_pointers x + L0.count x := fun x => posCount_set h0lt L0 x
  have hpBp0 : posCount hpB p0 = 0 := by
    have h1 := hsetB p0
    have h2 := hL0count p0
    simp at h2
    omega
  have hpBx : ∀ x, x ≠ p0 → posCount hpB x = posCount m.hashed_pointers x := by
    intro x hx
    have h1 := hsetB x
    have h2 := hL0count x
    rw [if_neg (fun he => hx he.symm)] at h2
    have h3 := count_bucketAt_le_posCount m.hashed_pointers hash0 x
    rw [← hcb0_def] at h3
    omega
  have hmemB_iff : ∀ y j, y ≠ p0 →
      (y ∈ bucketAt hpB j ↔ y ∈ bucketAt m.hashed_pointers j) := by
    intro y j hy
    by_cases hj : j = hash0
    · subst hj
      rw [hpB_def, bucketAt_set_self h0lt]
      rw [hL0perm.mem_iff, List.mem_erase_of_ne hy]
    · rw [hpB_def, bucketAt_set_ne (fun he => hj he.symm)]
  have hmemB_sub : ∀ y j, y ∈ bucketAt hpB j → y ∈ bucketAt m.hashed_pointers j := by
    intro y j hy
    have hyne : y ≠ p0 := by
      rintro rfl
      have := posCount_pos_of_mem_bucketAt hy
      omega
    exact (hmemB_iff y j hyne).mp hy
  -- facts about the new dense store
  have hstore2_at : ∀ q, q < n - 1 → q ≠ p0 → store2[q]? = m.value_store[q]? := by
    intro q hq hqp
    rw [hstore2_def, List.getElem?_dropLast]
    rw [List.length_set]
    rw [if_pos hq]
    exact List.getElem?_set_ne (fun he => hqp he.symm)
  have hstore2_p0 : p0 < n - 1 → store2[p0]? = some bkv := by
    intro hp0n
    rw [hstore2_def, List.getElem?_dropLast, List.length_set, if_pos hp0n]
    exact List.getElem?_set_self hp0lt
  -- keys of the new store
  have hkeysL_last : m.keys.getLast? = some bkv.1 := by
    rw [keys, List.getLast?_map, hlast]
    rfl
  have hkeys2 : keys { m with value_store := store2, hashed_pointers := hpC } =
      (m.keys.set p0 bkv.1).dropLast := by
    show store2.map Prod.fst = ((m.value_store.map Prod.fst).set p0 bkv.1).dropLast
    rw [hstore2_def, List.map_dropLast, List.map_set]
  have hkeysperm : ((m.keys.set p0 bkv.1).dropLast).Perm (m.keys.eraseIdx p0) := by
    refine set_getLast_dropLast_perm m.keys p0 ?_ bkv.1 hkeysL_last
    rw [keys, List.length_map]
    exact hp0lt
  have hkeysp0 : m.keys[p0]? = some key := by
    rw [keys, List.getElem?_map, h]
    rfl
  have hconsperm : m.keys.Perm (key :: m.keys.eraseIdx p0) := perm_cons_eraseIdx hkeysp0
  have hnodup_cons : (key :: m.keys.eraseIdx p0).Nodup := hconsperm.nodup hnodup
  have hkey_not : key ∉ m.keys.eraseIdx p0 := by
    intro hmem
    exact (List.nodup_cons.mp hnodup_cons).1 hmem
  have hnodup2 : ((m.keys.set p0 bkv.1).dropLast).Nodup :=
    (hkeysperm.symm).nodup (List.nodup_cons.mp hnodup_cons).2
  have hkey_not2 : key ∉ (m.keys.set p0 bkv.1).dropLast := by
    intro hmem
    exact hkey_not (hkeysperm.mem_iff.mp hmem)
  -- case split on whether the target is the last entry
  rcases eq_or_ne p0 (n - 1) with hpq | hpq
  · -- the erased entry is the last entry
    have hbkv : bkv = (key, v0) := by
      rw [hpq] at h
      rw [h] at hq1some
      exact (Option.some_inj.mp hq1some).symm
    have hq1notB : (n - 1) ∉ L1b := by
      intro hmem
      have := posCount_pos_of_mem_bucketAt hmem
      rw [← hpq] at this
      omega
    have hL1eq : L1 = L1b := replaceFirst_of_not_mem hq1notB
    have hcntC : ∀ x, posCount hpC x = posCount hpB x := by
      intro x
      have h1 := posCount_set h1ltB L1 x
      rw [← hpC_def, ← hL1b_def, hL1eq] at h1
      omega
    have hmemC_iff : ∀ y j, (y ∈ bucketAt hpC j ↔ y ∈ bucketAt hpB j) := by
      intro y j
      by_cases hj : j = hash1
      · subst hj
        rw [hpC_def, bucketAt_set_self h1ltB, hL1eq]
      · rw [hpC_def, bucketAt_set_ne (fun he => hj he.symm)]
    refine ⟨?_, ?_, ?_, ⟨?_, ?_, ?_, ?_, ?_⟩, ?_, rfl, ?_⟩
    · show store2.length + 1 = n
      omega
    · intro q hq hqp
      exact hstore2_at q hq hqp
    · intro hcontra
      exact absurd hpq hcontra
    · show 0 < hpC.length
      omega
    · intro b hb x hx
      obtain ⟨j, hj⟩ := exists_getElem_of_mem hb
      have hxj : x ∈ bucketAt hpC j := by
        rw [bucketAt_of_getElem hj]; exact hx
      have hxB : x ∈ bucketAt hpB j := (hmemC_iff x j).mp hxj
      have hxne : x ≠ p0 := by
        rintro rfl
        have := posCount_pos_of_mem_bucketAt hxB
        omega
      have hxold := hmemB_sub x j hxB
      obtain ⟨b2, hb2, hx2⟩ := exists_of_mem_bucketAt hxold
      have hxlt := hvalid b2 hb2 x hx2
      simp only [size] at hxlt
      show x < store2.length
      rw [hlen2]
      omega
    · intro p hp
      have hplt : p < n - 1 := by
        simp only [size, hlen2] at hp
        exact hp
      have hpne : p ≠ p0 := by omega
      show posCount hpC p = 1
      rw [hcntC, hpBx p hpne]
      exact hcount p (by simp only [size]; omega)
    · intro p hp
      have hplt : p < n - 1 := by
        simp only [size, hlen2] at hp
        exact hp
      have hpne : p ≠ p0 := by omega
      have hsame : store2[p]? = m.value_store[p]? := hstore2_at p hplt hpne
      obtain ⟨kvp, hkvp⟩ : ∃ kvp, m.value_store[p]? = some kvp :=
        ⟨_, List.getElem?_eq_getElem (by omega)⟩
      have hhi2 : homeIdx { m with value_store := store2, hashed_pointers := hpC } p =
          m.homeIdx p := by
        simp only [homeIdx, hsame, hkvp, bucketCount]
        rw [hlenC]
      rw [hhi2]
      have hold := hhome p (by simp only [size]; omega)
      rw [hmemC_iff, hmemB_iff p (m.homeIdx p) hpne]
      exact hold
    · show ((keys { m with value_store := store2, hashed_pointers := hpC })).Nodup
      rw [hkeys2]
      exact hnodup2
    · show key ∉ keys { m with value_store := store2, hashed_pointers := hpC }
      rw [hkeys2]
      exact hkey_not2
    · show hpC.length = m.hashed_pointers.length
      exact hlenC
  · -- the erased entry is not the last entry
    have hp0n1 : p0 < n - 1 := by omega
    have hq1memB : (n - 1) ∈ L1b := by
      rw [hL1b_def]
      rw [hmemB_iff (n - 1) hash1 (fun he => hpq he.symm)]
      exact hq1mem
    have hL1perm : L1.Perm (p0 :: L1b.erase (n - 1)) := replaceFirst_perm hq1memB
    have hcntL1b_p0 : L1b.count p0 = 0 := by
      have h1 := count_bucketAt_le_posCount hpB hash1 p0
      rw [← hL1b_def] at h1
      omega
    have hcntL1bq1 : 0 < L1b.count (n - 1) := List.count_pos_iff.mpr hq1memB
    have hsetC : ∀ x, posCount hpC x + L1b.count x = posCount hpB x + L1.count x := by
      intro x
      have h1 := posCount_set h1ltB L1 x
      rw [← hpC_def, ← hL1b_def] at h1
      exact h1
    have hcntL1 : ∀ x, L1.count x =
        (L1b.count x - (if (n - 1) = x then 1 else 0)) + (if x = p0 then 1 else 0) := by
      intro x
      rw [hL1perm.count_eq, List.count_cons, List.count_erase]
      simp only [beq_iff_eq]
      rcases eq_or_ne x p0 with he | he
      · simp [he]
      · simp [he, Ne.symm he]
    have hpCq1 : posCount hpC (n - 1) = 0 := by
      have h1 := hsetC (n - 1)
      have h2 := hcntL1 (n - 1)
      have hne2 : ¬(n - 1 = p0) := fun he => hpq he.symm
      simp [hne2] at h2
      have h3 := hpBx (n - 1) (fun he => hpq he.symm)
      omega
    have hpCp0 : posCount hpC p0 = 1 := by
      have h1 := hsetC p0
      have h2 := hcntL1 p0
      have hne2 : ¬(n - 1 = p0) := fun he => hpq he.symm
      simp [hne2] at h2
      omega
    have hpCx : ∀ x, x ≠ p0 → x ≠ n - 1 → posCount hpC x = posCount m.hashed_pointers x := by
      intro x hx1 hx2
      have h1 := hsetC x
      have h2 := hcntL1 x
      simp [hx1, Ne.symm hx2] at h2
      have h3 := hpBx x hx1
      have h4 := count_bucketAt_le_posCount hpB hash1 x
      rw [← hL1b_def] at h4
      omega
    have hmemC_iff : ∀ y j, y ≠ p0 → y ≠ n - 1 →
        (y ∈ bucketAt hpC j ↔ y ∈ bucketAt hpB j) := by
      intro y j hy1 hy2
      by_cases hj : j = hash1
      · subst hj
        rw [hpC_def, bucketAt_set_self h1ltB]
        rw [hL1perm.mem_iff]
        simp only [List.mem_cons]
        constructor
        · intro hcase
          rcases hcase with hcase | hcase
          · exact absurd hcase hy1
          · exact List.mem_of_mem_erase hcase
        · intro hmem
          exact Or.inr ((List.mem_erase_of_ne hy2).mpr hmem)
      · rw [hpC_def, bucketAt_set_ne (fun he => hj he.symm)]
    have hp0memC : p0 ∈ bucketAt hpC hash1 := by
      rw [hpC_def, bucketAt_set_self h1ltB]
      rw [hL1perm.mem_iff]
      exact List.mem_cons_self p0 _
    have hkeyne : bkv.1 ≠ key := by
      intro he
      have hkq1 : m.keys[n - 1]? = some key := by
        rw [keys, List.getElem?_map, hq1some]
        show some bkv.1 = some key
        rw [he]
      have hlt2 : n - 1 < m.keys.length := by
        rw [keys, List.length_map]
        exact hq1lt
      have := List.getElem?_inj hlt2 hnodup (hkq1.trans hkeysp0.symm)
      omega
    refine ⟨?_, ?_, ?_, ⟨?_, ?_, ?_, ?_, ?_⟩, ?_, rfl, ?_⟩
    · show store2.length + 1 = n
      omega
    · intro q hq hqp
      exact hstore2_at q hq hqp
    · intro _
      show store2[p0]? = m.value_store[n - 1]?
      rw [hstore2_p0 hp0n1, hq1some]
    · show 0 < hpC.length
      omega
    · intro b hb x hx
      obtain ⟨j, hj⟩ := exists_getElem_of_mem hb
      have hxj : x ∈ bucketAt hpC j := by
        rw [bucketAt_of_getElem hj]; exact hx
      have hxq1 : x ≠ n - 1 := by
        rintro rfl
        have := posCount_pos_of_mem_bucketAt hxj
        omega
      show x < store2.length
      rw [hlen2]
      by_cases hxp0 : x = p0
      · omega
      · have hxB : x ∈ bucketAt hpB j := (hmemC_iff x j hxp0 hxq1).mp hxj
        have hxold := hmemB_sub x j hxB
        obtain ⟨b2, hb2, hx2⟩ := exists_of_mem_bucketAt hxold
        have hxlt := hvalid b2 hb2 x hx2
        simp only [size] at hxlt
        omega
    · intro p hp
      have hplt : p < n - 1 := by
        simp only [size, hlen2] at hp
        exact hp
      show posCount hpC p = 1
      by_cases hpp0 : p = p0
      · rw [hpp0]
        exact hpCp0
      · rw [hpCx p hpp0 (by omega)]
        exact hcount p (by simp only [size]; omega)
    · intro p hp
      have hplt : p < n - 1 := by
        simp only [size, hlen2] at hp
        exact hp
      by_cases hpp0 : p = p0
      · rw [hpp0]
        have hsome2 : store2[p0]? = some bkv := hstore2_p0 hp0n1
        have hhi2 : homeIdx { m with value_store := store2, hashed_pointers := hpC } p0 =
            hash1 := by
          simp only [homeIdx, hsome2, bucketCount]
          rw [hlenC]
        rw [hhi2]
        exact hp0memC
      · have hsame : store2[p]? = m.value_store[p]? := hstore2_at p hplt hpp0
        obtain ⟨kvp, hkvp⟩ : ∃ kvp, m.value_store[p]? = some kvp :=
          ⟨_, List.getElem?_eq_getElem (by omega)⟩
        have hhi2 : homeIdx { m with value_store := store2, hashed_pointers := hpC } p =
            m.homeIdx p := by
          simp only [homeIdx, hsame, hkvp, bucketCount]
          rw [hlenC]
        rw [hhi2]
        have hold := hhome p (by simp only [size]; omega)
        rw [hmemC_iff p (m.homeIdx p) hpp0 (by omega), hmemB_iff p (m.homeIdx p) hpp0]
        exact hold
    · show ((keys { m with value_store := store2, hashed_pointers := hpC })).Nodup
      rw [hkeys2]
      exact hnodup2
    · show key ∉ keys { m with value_store := store2, hashed_pointers := hpC }
      rw [hkeys2]
      exact hkey_not2
    · show hpC.length = m.hashed_pointers.length
      exact hlenC

end HashMap


namespace HashMap

/-- Inserting an already-present key is a definitional no-op. -/
theorem insert_present (m : HashMap K V) {kv : K × V}
    (hpres : ¬m.find kv.1 = m.value_store.length) : m.insert kv = m := by
  rw [insert, if_neg hpres]

/-- Erasing an absent key is a definitional no-op. -/
theorem erase_absent (m : HashMap K V) {key : K}
    (habs : m.find key = m.value_store.length) : m.erase key = m := by
  rw [erase, if_pos habs]

/-- Erasure preserves well-formedness. -/
theorem WF_erase {m : HashMap K V} (hwf : m.WF) (key : K) : (m.erase key).WF := by
  by_cases hf : m.find key = m.value_store.length
  · rw [erase_absent m hf]
    exact hwf
  · rcases find_eq_size_or m key with h | ⟨hlt, ⟨v, hv⟩, _⟩
    · exact absurd h hf
    · exact (erase_spec m hwf hv).2.2.2.1

/-- Indexed access preserves well-formedness. -/
theorem WF_indexOp {m : HashMap K V} (hwf : m.WF) (key : K) : (m.indexOp key).1.WF := by
  rw [indexOp]
  split
  · exact WF_insert hwf _
  · exact hwf

/-- Master lemma for `insert` on an absent key: the pair is appended to the
dense store, the size grows by one, the result is well-formed, and `find`
afterwards returns the new position, which stores exactly the inserted
pair. -/
theorem insert_absent_spec (m : HashMap K V) (hwf : m.WF) (key : K) (v : V)
    (habs : m.find key = m.size) :
    (m.insert (key, v)).value_store = m.value_store ++ [(key, v)] ∧
    (m.insert (key, v)).size = m.size + 1 ∧
    (m.insert (key, v)).WF ∧
    (m.insert (key, v)).find key = m.size ∧
    (m.insert (key, v)).value_store[(m.insert (key, v)).find key]? = some (key, v) ∧
    (m.insert (key, v)).hasher = m.hasher := by
  have hwf2 : (m.insert (key, v)).WF := WF_insert hwf (key, v)
  have habs2 : m.find (key, v).1 = m.value_store.length := habs
  have hstore : (m.insert (key, v)).value_store = m.value_store ++ [(key, v)] := by
    rw [insert, if_pos habs2]
    rw [check_value_store]
  have hsize : (m.insert (key, v)).size = m.size + 1 := by
    rw [size, hstore, List.length_append]
    rfl
  have hat : (m.insert (key, v)).value_store[m.size]? = some (key, v) := by
    rw [hstore, size]
    exact List.getElem?_concat_length m.value_store (key, v)
  have hfind : (m.insert (key, v)).find key = m.size :=
    find_eq_of_getElem (m.insert (key, v)) hwf2 hat
  refine ⟨hstore, hsize, hwf2, hfind, ?_, ?_⟩
  · rw [hfind]
    exact hat
  · rw [insert, if_pos habs2, check_hasher]

/-- Repeated insertion from any well-formed start stays well-formed. -/
theorem WF_foldl_insert {m : HashMap K V} (hwf : m.WF) (l : List (K × V)) :
    (l.foldl insert m).WF := by
  induction l generalizing m with
  | nil => exact hwf
  | cons kv rest ih => exact ih (WF_insert hwf kv)

end HashMap

/-- All constructors produce well-formed containers. -/
theorem WF_ofList (hasher : K → Nat) (l : List (K × V)) :
    (ofList hasher l : HashMap K V).WF := by
  rw [ofList]
  exact HashMap.WF_foldl_insert (HashMap.WF_emptyMap hasher) l

/-- Every public operation preserves well-formedness. -/
theorem WF_applyOp {m : HashMap K V} (hwf : m.WF) (op : Op K V) :
    (applyOp m op).WF := by
  cases op with
  | insertOp kv => exact HashMap.WF_insert hwf kv
  | eraseOp k => exact HashMap.WF_erase hwf k
  | bracketOp k => exact HashMap.WF_indexOp hwf k
  | clearOp => exact HashMap.WF_clear m

/-- Any sequence of public operations preserves well-formedness. -/
theorem WF_runOps {m : HashMap K V} (hwf : m.WF) (ops : List (Op K V)) :
    (runOps m ops).WF := by
  induction ops generalizing m with
  | nil => exact hwf
  | cons op rest ih => exact ih (WF_applyOp hwf op)


open HashMap

/-- C1: after every public operation (insert, erase, operator[], clear, and
every constructor — the default constructor is `ofList hasher []`, the range
and initializer-list constructors are `ofList hasher l`) every live position
of the dense store appears in exactly one bucket of the bucket index, and
that bucket is `hash(key at p) mod bucket_count` for the current bucket
count. -/
theorem C1_bucket_index_invariant (hasher : K → Nat) (l : List (K × V))
    (ops : List (Op K V)) : (runOps (ofList hasher l) ops).BucketIndexInv := by
  have hwf := WF_runOps (WF_ofList hasher l) ops
  intro p hp
  exact ⟨hwf.2.2.1 p hp, hwf.2.2.2.1 p hp⟩

/-- C2: swap-compaction frame property of `erase`.  For a well-formed
container holding key `kB` at position `p0`, after `erase kB` the dense store
has no holes (every position below the new size is live), every position
other than `p0` and the old last position keeps its entry, position `p0` now
holds the entry that was at the last position (when `p0` was not last), and
`find` on the moved key returns `p0`. -/
theorem C2_erase_swap_compaction (m : HashMap K V) (hwf : m.WF) {p0 : Nat}
    {kB : K} {vB : V} (h : m.value_store[p0]? = some (kB, vB)) :
    (m.erase kB).size + 1 = m.size ∧
    (∀ q, q < m.size - 1 → ((m.erase kB).value_store[q]?).isSome) ∧
    (∀ q, q < m.size - 1 → q ≠ p0 →
      (m.erase kB).value_store[q]? = m.value_store[q]?) ∧
    (p0 ≠ m.size - 1 →
      (m.erase kB).value_store[p0]? = m.value_store[m.size - 1]?) ∧
    (p0 ≠ m.size - 1 → ∀ kL vL, m.value_store[m.size - 1]? = some (kL, vL) →
      (m.erase kB).find kL = p0) := by
  obtain ⟨hsz, hframe, hmove, hwf2, hgone, _, _⟩ := erase_spec m hwf h
  refine ⟨hsz, ?_, hframe, hmove, ?_⟩
  · intro q hq
    have hlen : (m.erase kB).value_store.length = m.size - 1 := by
      have hthis := hsz
      simp only [size] at hthis ⊢
      omega
    rw [List.getElem?_eq_getElem (by omega)]
    rfl
  · intro hne kL vL hL
    have hmoved : (m.erase kB).value_store[p0]? = some (kL, vL) := by
      rw [hmove hne, hL]
    exact find_eq_of_getElem (m.erase kB) hwf2 hmoved

/-- C2 witness: the container with entries (10,100), (11,101), (12,102) at
positions 0, 1, 2; erasing key 11 (position 1, not last) moves the entry
(12,102) to position 1, the size drops to 2, and `find 12` returns 1. -/
theorem C2_erase_swap_compaction_witness :
    (mapABC.erase 11).size + 1 = mapABC.size ∧
    (mapABC.erase 11).value_store[1]? = mapABC.value_store[2]? ∧
    (mapABC.erase 11).find 12 = 1 := by
  obtain ⟨h1, _, _, h4, h5⟩ :=
    C2_erase_swap_compaction mapABC (by decide)
      (by decide : mapABC.value_store[1]? = some (11, 101))
  exact ⟨h1, h4 (by decide), h5 (by decide) 12 102 (by decide)⟩

/-- C3: load-factor bound.  Starting from a state satisfying the strict
bound `3 * size < 2 * bucket_count` (which holds in every reachable state),
after any `insert` the strict bound holds again, the bucket count never
shrinks, and the single doubling performed by `check_and_reallocate` is
enough: the new bucket count is at most twice the old one. -/
theorem C3_load_factor_bound (m : HashMap K V)
    (h : 3 * m.size < 2 * m.bucketCount) (kv : K × V) :
    3 * (m.insert kv).size < 2 * (m.insert kv).bucketCount ∧
    m.bucketCount ≤ (m.insert kv).bucketCount ∧
    (m.insert kv).bucketCount ≤ 2 * m.bucketCount := by
  rw [size, bucketCount] at h
  by_cases hf : m.find kv.1 = m.value_store.length
  · rw [HashMap.insert, if_pos hf]
    rw [check_and_reallocate]
    split
    · rename_i hcond
      simp only [length_insertPos, List.length_append, List.length_cons,
        List.length_nil] at hcond
      refine ⟨?_, ?_, ?_⟩ <;>
        · simp only [size, bucketCount, rehashLoop_length, List.length_replicate,
            length_insertPos, List.length_append, List.length_cons, List.length_nil]
          by_cases hz : m.value_store.length = 0 <;> omega
    · rename_i hcond
      simp only [length_insertPos, List.length_append, List.length_cons,
        List.length_nil] at hcond
      refine ⟨?_, ?_, ?_⟩ <;>
        · simp only [size, bucketCount, length_insertPos, List.length_append,
            List.length_cons, List.length_nil]
          omega
  · rw [HashMap.insert, if_neg hf]
    exact ⟨h, Nat.le_refl _, by omega⟩

/-- C3 witness: the strict load-factor bound, bucket-count monotonicity and
the single-doubling bound, at a concrete reachable state. -/
theorem C3_load_factor_bound_witness :
    3 * (mapABC.insert (13, 103)).size < 2 * (mapABC.insert (13, 103)).bucketCount ∧
    mapABC.bucketCount ≤ (mapABC.insert (13, 103)).bucketCount ∧
    (mapABC.insert (13, 103)).bucketCount ≤ 2 * mapABC.bucketCount :=
  C3_load_factor_bound mapABC (by decide) (13, 103)

/-- C4 counterexample: inserting (1,"a") then (2,"b") into an empty container
with one bucket already doubles the bucket count after the first insert
(`3*1 ≥ 2*1` fires), so after the second insert the bucket count is 4, not 2
as the claim states. -/
theorem C4_rehash_scenario_counterexample :
    scenario1.bucketCount = 2 ∧ scenario2.bucketCount = 4 ∧
    ¬scenario2.bucketCount = 2 := by
  refine ⟨?_, ?_, ?_⟩ <;> decide

/-- C4 amended: inserting (1,"a"), (2,"b"), (3,"c") in that order into an
empty container with initial bucket_count = 1 causes a rehash after every
insert: bucket_count is 2 after the 1st insert, 4 after the 2nd, 8 after the
3rd, and the final size is 3. -/
theorem C4_rehash_scenario_amended :
    scenario1.bucketCount = 2 ∧ scenario2.bucketCount = 4 ∧
    scenario3.bucketCount = 8 ∧ scenario3.size = 3 := by
  refine ⟨?_, ?_, ?_, ?_⟩ <;> decide

/-- C5: round-trip.  For every well-formed container and key not present in
it (find returns the end sentinel), after `insert (key, v)` a `find key`
returns a live position (not the end sentinel) that stores exactly the
entry `(key, v)` — also when the insert triggered a rehash. -/
theorem C5_insert_find_roundtrip (m : HashMap K V) (hwf : m.WF) (key : K)
    (v : V) (habs : m.find key = m.size) :
    (m.insert (key, v)).value_store[(m.insert (key, v)).find key]? = some (key, v) ∧
    ¬(m.insert (key, v)).find key = (m.insert (key, v)).size := by
  obtain ⟨_, hsize, _, hfind, hat, _⟩ := insert_absent_spec m hwf key v habs
  refine ⟨hat, ?_⟩
  rw [hfind, hsize]
  omega

/-- C5 witness: inserting the absent key 99 into the concrete container and
finding it again. -/
theorem C5_insert_find_roundtrip_witness :
    (mapABC.insert (99, 999)).value_store[(mapABC.insert (99, 999)).find 99]? =
      some (99, 999) ∧
    ¬(mapABC.insert (99, 999)).find 99 = (mapABC.insert (99, 999)).size :=
  C5_insert_find_roundtrip mapABC (by decide) 99 999 (by decide)

/-- C6: erase completeness.  For every well-formed container: erasing an
absent key leaves the container entirely unchanged, and erasing a present
key makes a subsequent `find` return the end sentinel and decreases the size
by exactly one. -/
theorem C6_erase_completeness (m : HashMap K V) (hwf : m.WF) (key : K) :
    (m.find key = m.size → m.erase key = m) ∧
    (¬m.find key = m.size →
      (m.erase key).find key = (m.erase key).size ∧
      (m.erase key).size + 1 = m.size) := by
  constructor
  · intro habs
    exact erase_absent m habs
  · intro hpres
    rcases find_eq_size_or m key with hcase | ⟨hlt, ⟨v, hv⟩, _⟩
    · exact absurd hcase hpres
    · obtain ⟨hsz, _, _, hwf2, hgone, _, _⟩ := erase_spec m hwf hv
      refine ⟨?_, hsz⟩
      rw [find_eq_size_iff _ hwf2 key]
      exact hgone

/-- C6 witness: erasing the present key 11 empties its `find` and drops the
size by one; erasing the absent key 99 changes nothing. -/
theorem C6_erase_completeness_witness :
    (mapABC.erase 11).find 11 = (mapABC.erase 11).size ∧
    (mapABC.erase 11).size + 1 = mapABC.size ∧
    mapABC.erase 99 = mapABC := by
  obtain ⟨h1, h2⟩ := (C6_erase_completeness mapABC (by decide) 11).2 (by decide)
  exact ⟨h1, h2, (C6_erase_completeness mapABC (by decide) 99).1 (by decide)⟩

/-- C7: first-wins insert.  When the key is already present (find does not
return the end sentinel), `insert` is a complete no-op: the whole container
state — stored value, size, buckets, bucket count — is unchanged, and in
particular no rehash occurs. -/
theorem C7_insert_first_wins (m : HashMap K V) (kv : K × V)
    (hpres : ¬m.find kv.1 = m.size) : m.insert kv = m :=
  insert_present m hpres

/-- C7 witness: inserting key 11 (present, stored value 101) with the new
value 999 leaves the concrete container unchanged. -/
theorem C7_insert_first_wins_witness : mapABC.insert (11, 999) = mapABC :=
  C7_insert_first_wins mapABC (11, 999) (by decide)

/-- C8: `at` error contract.  `at key` returns `Except.error ()` (the
`std::out_of_range` / KeyNotFound error) exactly when `find` returns the end
sentinel, and otherwise returns `Except.ok v` where `v` is the value stored
with `key` at the found position.  `at` is a pure function of the container
(`const` in the source), so the container is unchanged in both cases, and no
other modelled operation returns an error value at all. -/
theorem C8_atKey_error_contract (m : HashMap K V) (key : K) :
    (m.find key = m.size → m.atKey key = Except.error ()) ∧
    (¬m.find key = m.size →
      ∃ v, m.value_store[m.find key]? = some (key, v) ∧
        m.atKey key = Except.ok v) := by
  constructor
  · intro habs
    have habs2 : m.find key = m.value_store.length := habs
    rw [atKey, if_pos habs2]
  · intro hpres
    have hpres2 : ¬m.find key = m.value_store.length := hpres
    rcases find_eq_size_or m key with hcase | ⟨hlt, ⟨v, hv⟩, _⟩
    · exact absurd hcase hpres
    · refine ⟨v, hv, ?_⟩
      rw [atKey, if_neg hpres2, hv]

/-- C8 witness: `at 99` on the concrete container errors (99 is absent), and
`at 10` returns the stored value 100. -/
theorem C8_atKey_error_contract_witness :
    mapABC.atKey 99 = Except.error () ∧ mapABC.atKey 10 = Except.ok 100 := by
  refine ⟨(C8_atKey_error_contract mapABC 99).1 (by decide), ?_⟩
  obtain ⟨v, hv, hok⟩ := (C8_atKey_error_contract mapABC 10).2 (by decide)
  have h0 : mapABC.value_store[mapABC.find 10]? = some (10, 100) := by decide
  have hv100 : v = 100 := by
    have := Option.some_inj.mp (hv.symm.trans h0)
    exact congrArg Prod.snd this
  rw [hv100] at hok
  exact hok

/-- C9: `operator[]` on an absent key inserts `(key, default)` through the
ordinary `insert` (and hence the ordinary resize policy), increments the size
by exactly one, and hands back a reference to the newly stored
default-constructed value. -/
theorem C9_indexOp_absent (m : HashMap K V) (hwf : m.WF) (key : K)
    (habs : m.find key = m.size) :
    (m.indexOp key).1 = m.insert (key, (default : V)) ∧
    (m.indexOp key).1.size = m.size + 1 ∧
    (m.indexOp key).2 = some (default : V) ∧
    (m.indexOp key).1.value_store[(m.indexOp key).1.find key]? =
      some (key, (default : V)) := by
  have habs2 : m.find key = m.value_store.length := habs
  obtain ⟨_, hsize, _, hfind, hat, _⟩ :=
    insert_absent_spec m hwf key (default : V) habs
  have h1 : (m.indexOp key).1 = m.insert (key, (default : V)) := by
    rw [indexOp, if_pos habs2]
  have h2 : (m.indexOp key).2 =
      ((m.insert (key, (default : V))).value_store[(m.insert
        (key, (default : V))).find key]?).map Prod.snd := by
    rw [indexOp, if_pos habs2]
  refine ⟨h1, ?_, ?_, ?_⟩
  · rw [h1]
    exact hsize
  · rw [h2, hat]
    rfl
  · rw [h1]
    exact hat

/-- C9 witness: `operator[] 99` on the concrete container (99 absent,
default value 0) inserts (99, 0), increments the size to 4, and returns the
new default value. -/
theorem C9_indexOp_absent_witness :
    (mapABC.indexOp 99).1 = mapABC.insert (99, 0) ∧
    (mapABC.indexOp 99).1.size = mapABC.size + 1 ∧
    (mapABC.indexOp 99).2 = some 0 ∧
    (mapABC.indexOp 99).1.value_store[(mapABC.indexOp 99).1.find 99]? =
      some (99, 0) :=
  C9_indexOp_absent mapABC (by decide) 99 (by decide)

/-- C10: `operator[]` on a present key mutates nothing: the resulting state
is the original container (same stored entries, buckets, size and bucket
count), and the returned reference is to the value stored at the found
position. -/
theorem C10_indexOp_present (m : HashMap K V) (key : K)
    (hpres : ¬m.find key = m.size) :
    (m.indexOp key).1 = m ∧
    (m.indexOp key).2 = (m.value_store[m.find key]?).map Prod.snd := by
  have hpres2 : ¬m.find key = m.value_store.length := hpres
  rw [indexOp, if_neg hpres2]
  exact ⟨rfl, rfl⟩

/-- C10 witness: `operator[] 11` on the concrete container (11 present)
returns the container unchanged together with the stored value. -/
theorem C10_indexOp_present_witness :
    (mapABC.indexOp 11).1 = mapABC ∧
    (mapABC.indexOp 11).2 = (mapABC.value_store[mapABC.find 11]?).map Prod.snd :=
  C10_indexOp_present mapABC 11 (by decide)

end HashTbl
